import Mathlib

/-!
Verification of the poker hand evaluators of this repository: the 5-to-7 card
high-hand evaluator (table / perfect-hash based), the 4-card badugi evaluator
(combinatorial number system based), and the rank comparison model.

The evaluator sources (`high_evaluator.rs`, `badugi_evaluator.rs`,
`badugi_rank.rs`) are embedded directly.  The card encoder, the `Value`
helpers, the `Rank` type with its orderings and the four precomputed lookup
tables live in files of the repository that are not part of the embedded
sources; those are modelled from the spec (each such definition is marked).
Machine integers are modelled as `Nat` with an explicit `% 2^32` where the
source relies on 32-bit wrapping arithmetic.
-/

set_option maxHeartbeats 1000000

/-- Modelled from the spec: a card (`Card` in the missing `core` card module)
is a rank value (0 = Two .. 12 = Ace) together with a suit. -/
structure Card where
  value : Fin 13
  suit : Fin 4
deriving DecidableEq

/-- Modelled from the spec: the distinct prime associated with each rank
(bits 0-7 of the card bit pattern). -/
def rankPrime : Fin 13 → ℕ := ![2, 3, 5, 7, 11, 13, 17, 19, 23, 29, 31, 37, 41]

/-- Modelled from the spec (section 3): the 32-bit card encoding.  Bits 16-28
hold a one-hot rank mask, bits 12-15 a one-hot suit mask, bits 8-11 the
numeric rank value and bits 0-7 the rank's prime. -/
def calculate_bit_pattern (c : Card) : ℕ :=
  (2 ^ (16 + (c.value : ℕ))) ||| (2 ^ (12 + (c.suit : ℕ))) |||
    ((c.value : ℕ) <<< 8) ||| rankPrime c.value

/-- Modelled from the spec: the shared rank value (`Rank` / `BasicRank` of the
missing `rank` module): strength, category (`hand_rank`), intra-category
ordinal (`sub_rank`) and an optional description. -/
structure Rank where
  strength : ℕ
  hand_rank : ℕ
  sub_rank : ℕ
  description : Option String
deriving DecidableEq

/-- The error type of the evaluators (spec section 7). -/
inductive EvaluatorError where
  | NotEnoughCards : String → ℕ → EvaluatorError
  | TooManyCards : String → ℕ → EvaluatorError
  | UnknownError : String → EvaluatorError
deriving DecidableEq

/-- The four static lookup tables consumed read-only by the high evaluator,
kept abstract: `flushes` and `unique5` are keyed by the 13-bit rank-union,
`hashValues` by the perfect-hash index and `hashAdjust` by the 9-bit hash
bucket.  `unique5` is a partial map (the source tests membership first). -/
structure Tables where
  flushes : ℕ → ℕ
  unique5 : ℕ → Option ℕ
  hashValues : ℕ → ℕ
  hashAdjust : ℕ → ℕ

/-- `find_fast` from `high_evaluator.rs`: the 32-bit wrapping mixing function
of the perfect hash.  Every `Wrapping<u32>` addition and left shift is
reduced `% 2^32`; xor and right shift cannot leave 32 bits. -/
def find_fast (adjust : ℕ → ℕ) (q0 : ℕ) : ℕ :=
  let q1 := (q0 + 0xe91aaa35) % 4294967296
  let q2 := q1 ^^^ (q1 >>> 16)
  let q3 := (q2 + ((q2 <<< 8) % 4294967296)) % 4294967296
  let q4 := q3 ^^^ (q3 >>> 4)
  let b := (q4 >>> 8) &&& 0x1ff
  let a := ((q4 + ((q4 <<< 2) % 4294967296)) % 4294967296) >>> 19
  a ^^^ adjust b

/-- `eval_five_cards` from `high_evaluator.rs`, parameterised by the tables. -/
def eval_five_cards (T : Tables) (c0 c1 c2 c3 c4 : ℕ) : ℕ :=
  let q := (c0 ||| c1 ||| c2 ||| c3 ||| c4) >>> 16
  if c0 &&& c1 &&& c2 &&& c3 &&& c4 &&& 0xf000 ≠ 0 then
    T.flushes q
  else
    match T.unique5 q with
    | some v => v
    | none =>
      T.hashValues (find_fast T.hashAdjust
        ((c0 &&& 0xff) * (c1 &&& 0xff) * (c2 &&& 0xff) * (c3 &&& 0xff) * (c4 &&& 0xff)))

/-- The perfect-hash mixing function exactly as claim C1 words it, in plain
32-bit wrapping arithmetic (division/multiplication/remainder form). -/
def claimFindFast (adjust : ℕ → ℕ) (q0 : ℕ) : ℕ :=
  let q1 := (q0 + 0xe91aaa35) % 4294967296
  let q2 := q1 ^^^ (q1 / 65536)
  let q3 := (q2 + (q2 * 256) % 4294967296) % 4294967296
  let q4 := q3 ^^^ (q3 / 16)
  let b := (q4 / 256) % 512
  let a := ((q4 + (q4 * 4) % 4294967296) % 4294967296) / 524288
  a ^^^ adjust b

/-- The five-card scorer as claim C1 words it: suit nibbles are the 4-bit
fields at bits 12-15, the rank-union key is the OR of the rank masks shifted
down by 16, and the hash path feeds the product of the five prime factors
(bits 0-7 of each card) through `claimFindFast`. -/
def claimEvalFive (T : Tables) (c0 c1 c2 c3 c4 : ℕ) : ℕ :=
  let nib0 := (c0 >>> 12) &&& 0xf
  let nib1 := (c1 >>> 12) &&& 0xf
  let nib2 := (c2 >>> 12) &&& 0xf
  let nib3 := (c3 >>> 12) &&& 0xf
  let nib4 := (c4 >>> 12) &&& 0xf
  let rankKey := (c0 >>> 16) ||| (c1 >>> 16) ||| (c2 >>> 16) ||| (c3 >>> 16) ||| (c4 >>> 16)
  if nib0 &&& nib1 &&& nib2 &&& nib3 &&& nib4 ≠ 0 then
    T.flushes rankKey
  else
    match T.unique5 rankKey with
    | some v => v
    | none =>
      T.hashValues (claimFindFast T.hashAdjust
        ((c0 &&& 0xff) * (c1 &&& 0xff) * (c2 &&& 0xff) * (c3 &&& 0xff) * (c4 &&& 0xff)))

lemma lor_shiftRight (a b n : ℕ) : (a ||| b) >>> n = (a >>> n) ||| (b >>> n) := by
  apply Nat.eq_of_testBit_eq
  intro i
  simp [Nat.testBit_shiftRight, Nat.testBit_or]

lemma land_shiftRight (a b n : ℕ) : (a &&& b) >>> n = (a >>> n) &&& (b >>> n) := by
  apply Nat.eq_of_testBit_eq
  intro i
  simp [Nat.testBit_shiftRight, Nat.testBit_and]

lemma find_fast_eq_claim (adjust : ℕ → ℕ) (q0 : ℕ) :
    find_fast adjust q0 = claimFindFast adjust q0 := by
  have h1ff : (0x1ff : ℕ) = 2 ^ 9 - 1 := by norm_num
  simp only [find_fast, claimFindFast, Nat.shiftRight_eq_div_pow, Nat.shiftLeft_eq, h1ff,
    Nat.and_pow_two_sub_one_eq_mod]

lemma masked_ne_zero_iff (X : ℕ) : X &&& 0xf000 ≠ 0 ↔ (X >>> 12) &&& 0xf ≠ 0 := by
  have hsh : (X &&& 0xf000) >>> 12 = (X >>> 12) &&& 0xf := by
    rw [land_shiftRight, show (0xf000 : ℕ) >>> 12 = 0xf from rfl]
  have hmod : (X &&& 0xf000) % 4096 = 0 := by
    have h := Nat.and_pow_two_sub_one_eq_mod (X &&& 0xf000) 12
    norm_num at h
    rw [← h, Nat.land_assoc, show (61440 : ℕ) &&& 4095 = 0 from rfl, Nat.and_zero]
  have hdiv : (X &&& 0xf000) >>> 12 = (X &&& 0xf000) / 4096 := by
    rw [Nat.shiftRight_eq_div_pow]
  have hsplit := Nat.div_add_mod (X &&& 0xf000) 4096
  rw [← hsh, hdiv]
  omega

/-- C1: for every five encoded cards, `eval_five_cards` takes the flush-table
entry at the 13-bit rank-union key when the bitwise AND of the five suit
nibbles is non-zero, otherwise the `UNIQUE5` entry at that key when present,
otherwise the hash-value-table entry at the index `find_fast` computes from
the product of the five prime factors — and `find_fast` performs exactly the
claimed 32-bit wrapping mixing steps. -/
theorem c1_eval_five_cards_matches_spec (T : Tables) (c0 c1 c2 c3 c4 : ℕ) :
    eval_five_cards T c0 c1 c2 c3 c4 = claimEvalFive T c0 c1 c2 c3 c4 := by
  have hq : (c0 ||| c1 ||| c2 ||| c3 ||| c4) >>> 16 =
      (c0 >>> 16) ||| (c1 >>> 16) ||| (c2 >>> 16) ||| (c3 >>> 16) ||| (c4 >>> 16) := by
    simp [lor_shiftRight]
  have hnib : ∀ c d : ℕ, ((c >>> 12) &&& 0xf) &&& ((d >>> 12) &&& 0xf) =
      ((c &&& d) >>> 12) &&& 0xf := by
    intro c d
    rw [land_shiftRight]
    apply Nat.eq_of_testBit_eq
    intro i
    simp only [Nat.testBit_and, Nat.testBit_shiftRight]
    cases c.testBit (12 + i) <;> cases d.testBit (12 + i) <;>
      cases Nat.testBit 15 i <;> rfl
  have hsuit : (c0 &&& c1 &&& c2 &&& c3 &&& c4 &&& 0xf000 ≠ 0) ↔
      (((c0 >>> 12) &&& 0xf) &&& ((c1 >>> 12) &&& 0xf) &&& ((c2 >>> 12) &&& 0xf) &&&
        ((c3 >>> 12) &&& 0xf) &&& ((c4 >>> 12) &&& 0xf) ≠ 0) := by
    rw [hnib, hnib, hnib, hnib]
    exact masked_ne_zero_iff _
  simp only [eval_five_cards, claimEvalFive, hq, hsuit, find_fast_eq_claim]

/-- Modelled from the spec: `Value::get_readable_string` of the missing card
module — the face names used by the description renderer and its tests. -/
def valueString : Fin 13 → String :=
  !["2", "3", "4", "5", "6", "7", "8", "9", "10", "Jack", "Queen", "King", "Ace"]

/-- Modelled from the spec: `Value::from_int`, defined on 0..12 and `None`
outside (the renderer treats `None` as a validation error). -/
def valueFromInt (n : ℕ) : Option (Fin 13) :=
  if h : n < 13 then some ⟨n, h⟩ else none

/-- The shared high-card/flush face breakpoint chain of `get_string`
(`sub_rank > 0 && sub_rank <= 4` gives "7", and so on). -/
def highCardFace (sub_rank : ℕ) : Option String :=
  if 0 < sub_rank ∧ sub_rank ≤ 4 then some "7"
  else if 4 < sub_rank ∧ sub_rank ≤ 18 then some "8"
  else if 18 < sub_rank ∧ sub_rank ≤ 52 then some "9"
  else if 52 < sub_rank ∧ sub_rank ≤ 121 then some "10"
  else if 121 < sub_rank ∧ sub_rank ≤ 246 then some "Jack"
  else if 246 < sub_rank ∧ sub_rank ≤ 455 then some "Queen"
  else if 455 < sub_rank ∧ sub_rank ≤ 784 then some "King"
  else if 784 < sub_rank ∧ sub_rank ≤ 1277 then some "Ace"
  else none

/-- `get_string` from `high_evaluator.rs`.  The two-pair branch computes
`(((2*(sub_rank-1)/11) as f64 + 0.25).sqrt() - 0.5).floor() as u16`; for
`x = 2*(sub_rank-1)/11` the double `x + 0.25` is exact, `sqrt` is correctly
rounded and the boundary values `t + 0.5` (at `x = t*(t+1)`) are exactly
representable, so that floor equals the largest `t` with `t*(t+1) <= x`,
i.e. `(Nat.sqrt (4*x+1) - 1) / 2`; the embedding uses that integer form. -/
def get_string (hand_rank sub_rank : ℕ) : Except String String :=
  match hand_rank with
  | 1 =>
    if sub_rank < 1 ∨ sub_rank > 1277 then .error "Sub rank for high card was not valid"
    else
      match highCardFace sub_rank with
      | some s => .ok (s ++ " High")
      | none => .error "Sub rank for high card was not valid"
  | 2 =>
    match valueFromInt ((sub_rank - 1) / 220) with
    | some v => .ok ("Pair of " ++ valueString v ++ "s")
    | none => .error "Sub rank for one pair was not valid"
  | 3 =>
    let first_pair_rank := (Nat.sqrt (4 * (2 * (sub_rank - 1) / 11) + 1) - 1) / 2 + 1
    let sec_pair_kick_rank := sub_rank - (first_pair_rank - 1) * first_pair_rank / 2 * 11
    match valueFromInt first_pair_rank, valueFromInt ((sec_pair_kick_rank - 1) / 11) with
    | some fp, some sp =>
      .ok ("Two Pair of " ++ valueString fp ++ "s and " ++ valueString sp ++ "s")
    | _, _ => .error "Sub rank for two pair was not valid"
  | 4 =>
    match valueFromInt ((sub_rank - 1) / 66) with
    | some v => .ok ("Trip " ++ valueString v ++ "s")
    | none => .error "Sub rank for three of a kind was not valid"
  | 5 =>
    if sub_rank < 1 ∨ sub_rank > 10 then .error "Sub rank for straight was not valid"
    else
      match valueFromInt (sub_rank + 2) with
      | some v => .ok (valueString v ++ " High Straight")
      | none => .ok ""
  | 6 =>
    match highCardFace sub_rank with
    | some s => .ok (s ++ " High Flush")
    | none => .error "Sub rank for flush was not valid"
  | 7 =>
    let trip_rank := (sub_rank - 1) / 12
    let pair_rank0 := (sub_rank - 1) % 12
    let pair_rank := if pair_rank0 ≥ trip_rank then pair_rank0 + 1 else pair_rank0
    match valueFromInt trip_rank, valueFromInt pair_rank with
    | some t, some p => .ok (valueString t ++ "s Full of " ++ valueString p ++ "s")
    | _, _ => .error "Sub rank for full house was not valid"
  | 8 =>
    match valueFromInt ((sub_rank - 1) / 12) with
    | some v => .ok ("Quad " ++ valueString v ++ "s")
    | none => .error "Sub rank for four of a kind was not valid"
  | 9 =>
    if sub_rank < 1 ∨ sub_rank > 10 then .error "Sub rank for straight was not valid"
    else
      match valueFromInt (sub_rank + 2) with
      | some v => .ok (valueString v ++ " High Straight Flush")
      | none => .ok ""
  | _ => .error "Hand rank did not have a valid hand category"

/-- The `strength_threshold` array of `evaluate_hand`, already paired with the
category index `i + 1` produced by `enumerate().rev()` (the source walks the
array from index 8 down to 0). -/
def strengthThresholdRev : List (ℕ × ℕ) :=
  [(9, 10), (8, 156), (7, 156), (6, 1277), (5, 10), (4, 858), (3, 858), (2, 2860), (1, 1277)]

/-- The decomposition loop of `evaluate_hand`: subtract category sizes until
`ranks_left` falls inside one, then report that category and
`sub_rank = size - ranks_left`; falling off the end leaves `(0, 0)`. -/
def walkThresholds : ℕ → List (ℕ × ℕ) → ℕ × ℕ
  | _, [] => (0, 0)
  | ranksLeft, (hr, s) :: rest =>
    if ranksLeft < s then (hr, s - ranksLeft) else walkThresholds (ranksLeft - s) rest

/-- The full decomposition of a best raw score into `(hand_rank, sub_rank)`:
the source leaves both at 0 unless `best_rank >= 1`. -/
def decompose (best : ℕ) : ℕ × ℕ :=
  if 1 ≤ best then walkThresholds (best - 1) strengthThresholdRev else (0, 0)

/-- All `k`-element combinations of a list, in the order of the source's
nested ascending index loops (and of itertools' `combinations`):
combinations containing the first element come first. -/
def combs {α : Type} : ℕ → List α → List (List α)
  | 0, _ => [[]]
  | _ + 1, [] => []
  | k + 1, x :: xs => ((combs k xs).map (fun c => x :: c)) ++ combs (k + 1) xs

/-- Apply the five-card scorer to one enumerated combination (every
combination produced by `combs 5` has exactly five elements). -/
def evalFiveList (T : Tables) : List ℕ → ℕ
  | [c0, c1, c2, c3, c4] => eval_five_cards T c0 c1 c2 c3 c4
  | _ => 0

/-- The `hand_results` vector of `evaluate_hand`: one raw score per 5-card
combination of the encoded cards. -/
def rawScores (T : Tables) (cards : List ℕ) : List ℕ :=
  (combs 5 cards).map (evalFiveList T)

/-- `Iterator::min` on a vector: `None` exactly on the empty list. -/
def iterMin : List ℕ → Option ℕ
  | [] => none
  | h :: t => some (t.foldl min h)

/-- `evaluate_hand` from `high_evaluator.rs`, parameterised by the tables. -/
def evaluate_hand (T : Tables) (player_hand board : List Card) :
    Except EvaluatorError (List Rank) :=
  let card_count := player_hand.length + board.length
  if card_count < 5 then .error (.NotEnoughCards "Set of cards" 5)
  else if card_count > 7 then .error (.TooManyCards "Set of cards" 7)
  else
    let all_cards := (player_hand ++ board).map calculate_bit_pattern
    match iterMin (rawScores T all_cards) with
    | none => .error (.UnknownError "Could not get the minimum rank")
    | some best_rank =>
      let hs := decompose best_rank
      .ok [{ strength := 7463 - best_rank, hand_rank := hs.1, sub_rank := hs.2,
             description := some (match get_string hs.1 hs.2 with
               | .ok s => s
               | .error e => e) }]

lemma combs_length {α : Type} : ∀ (k : ℕ) (l : List α),
    (combs k l).length = Nat.choose l.length k := by
  intro k l
  induction l generalizing k with
  | nil => cases k <;> simp [combs]
  | cons x xs ih =>
    cases k with
    | zero => simp [combs]
    | succ k =>
      simp only [combs, List.length_append, List.length_map, ih, List.length_cons]
      rw [Nat.choose_succ_succ]

lemma combs_ne_nil {α : Type} {k : ℕ} {l : List α} (h : k ≤ l.length) :
    combs k l ≠ [] := by
  intro hnil
  have hlen := combs_length k l
  rw [hnil] at hlen
  have := Nat.choose_pos h
  simp at hlen
  omega

lemma mem_combs_length {α : Type} : ∀ (k : ℕ) (l : List α) (c : List α),
    c ∈ combs k l → c.length = k := by
  intro k l
  induction l generalizing k with
  | nil =>
    intro c hc
    cases k with
    | zero => simp [combs] at hc; simp [hc]
    | succ k => simp [combs] at hc
  | cons x xs ih =>
    intro c hc
    cases k with
    | zero => simp [combs] at hc; simp [hc]
    | succ k =>
      simp only [combs, List.mem_append, List.mem_map] at hc
      rcases hc with ⟨d, hd, rfl⟩ | hc
      · simp [ih k d hd]
      · exact ih (k + 1) c hc

lemma foldl_min_le_init : ∀ (t : List ℕ) (a : ℕ), t.foldl min a ≤ a := by
  intro t
  induction t with
  | nil => intro a; simp
  | cons x xs ih =>
    intro a
    simp only [List.foldl_cons]
    exact le_trans (ih (min a x)) (min_le_left a x)

lemma foldl_min_mem : ∀ (t : List ℕ) (a : ℕ), t.foldl min a ∈ a :: t := by
  intro t
  induction t with
  | nil => intro a; simp
  | cons x xs ih =>
    intro a
    simp only [List.foldl_cons]
    rcases List.mem_cons.mp (ih (min a x)) with h1 | h2
    · rcases min_choice a x with hm | hm
      · rw [h1, hm]; exact List.mem_cons_self _ _
      · rw [h1, hm]; exact List.mem_cons_of_mem _ (List.mem_cons_self _ _)
    · exact List.mem_cons_of_mem _ (List.mem_cons_of_mem _ h2)

lemma foldl_min_le : ∀ (t : List ℕ) (a x : ℕ), x ∈ a :: t → t.foldl min a ≤ x := by
  intro t
  induction t with
  | nil =>
    intro a x hx
    simp at hx
    simp [hx]
  | cons y ys ih =>
    intro a x hx
    simp only [List.foldl_cons]
    rcases List.mem_cons.mp hx with rfl | hx'
    · exact le_trans (foldl_min_le_init ys (min x y)) (min_le_left x y)
    · rcases List.mem_cons.mp hx' with rfl | hx''
      · exact le_trans (foldl_min_le_init ys (min a x)) (min_le_right a x)
      · exact ih (min a y) x (List.mem_cons_of_mem _ hx'')

lemma evaluate_hand_valid (T : Tables) (p b : List Card)
    (h5 : 5 ≤ p.length + b.length) (h7 : p.length + b.length ≤ 7) :
    ∃ best : ℕ,
      iterMin (rawScores T ((p ++ b).map calculate_bit_pattern)) = some best ∧
      evaluate_hand T p b = .ok [⟨7463 - best, (decompose best).1, (decompose best).2,
        some (match get_string (decompose best).1 (decompose best).2 with
          | .ok s => s | .error e => e)⟩] := by
  have hlen : ((p ++ b).map calculate_bit_pattern).length = p.length + b.length := by
    simp
  obtain ⟨c, cs, hceq⟩ :=
    List.exists_cons_of_ne_nil (combs_ne_nil (l := (p ++ b).map calculate_bit_pattern)
      (k := 5) (by omega))
  have heq : rawScores T ((p ++ b).map calculate_bit_pattern) =
      evalFiveList T c :: cs.map (evalFiveList T) := by
    rw [rawScores, hceq, List.map_cons]
  refine ⟨(cs.map (evalFiveList T)).foldl min (evalFiveList T c), ?_, ?_⟩
  · rw [heq]; rfl
  · simp only [evaluate_hand]
    rw [if_neg (by omega), if_neg (by omega), heq]
    rfl

/-- C5: the high evaluator fails with `NotEnoughCards` (bound 5) exactly when
fewer than 5 cards are supplied, with `TooManyCards` (bound 7) exactly when
more than 7 are, and returns a single-element `Ok` list for every total in
[5, 7]. -/
theorem c5_high_input_validation (T : Tables) (player_hand board : List Card) :
    (evaluate_hand T player_hand board = .error (.NotEnoughCards "Set of cards" 5) ↔
      player_hand.length + board.length < 5) ∧
    (evaluate_hand T player_hand board = .error (.TooManyCards "Set of cards" 7) ↔
      7 < player_hand.length + board.length) ∧
    (5 ≤ player_hand.length + board.length → player_hand.length + board.length ≤ 7 →
      ∃ r : Rank, evaluate_hand T player_hand board = .ok [r]) := by
  by_cases h5 : player_hand.length + board.length < 5
  · have he : evaluate_hand T player_hand board = .error (.NotEnoughCards "Set of cards" 5) := by
      simp only [evaluate_hand]
      rw [if_pos h5]
    refine ⟨⟨fun _ => h5, fun _ => he⟩, ⟨fun h => ?_, fun h => absurd h (by omega)⟩,
      fun h _ => absurd h (by omega)⟩
    rw [he] at h
    simp at h
  · by_cases h7 : 7 < player_hand.length + board.length
    · have he : evaluate_hand T player_hand board = .error (.TooManyCards "Set of cards" 7) := by
        simp only [evaluate_hand]
        rw [if_neg h5, if_pos h7]
      refine ⟨⟨fun h => ?_, fun h => absurd h (by omega)⟩, ⟨fun _ => h7, fun _ => he⟩,
        fun _ h => absurd h (by omega)⟩
      rw [he] at h
      simp at h
    · obtain ⟨best, _, heval⟩ := evaluate_hand_valid T player_hand board (by omega) (by omega)
      refine ⟨⟨fun h => ?_, fun h => absurd h (by omega)⟩,
        ⟨fun h => ?_, fun h => absurd h (by omega)⟩, fun _ _ => ⟨_, heval⟩⟩
      · rw [heval] at h
        simp at h
      · rw [heval] at h
        simp at h

/-- A trivial concrete table instance used to instantiate table-parametric
theorems: every lookup yields raw score 1 and `UNIQUE5` is empty. -/
def unitTables : Tables := ⟨fun _ => 1, fun _ => none, fun _ => 1, fun _ => 0⟩

/-- Five concrete cards used to instantiate the high-evaluator theorems. -/
def witCards5 : List Card := [⟨0, 0⟩, ⟨1, 1⟩, ⟨2, 2⟩, ⟨3, 3⟩, ⟨4, 0⟩]

theorem c5_high_input_validation_witness :
    ∃ r : Rank, evaluate_hand unitTables witCards5 [] = .ok [r] :=
  (c5_high_input_validation unitTables witCards5 []).2.2 (by decide) (by decide)

/-- C9: for every valid 5-7 card input the high evaluator returns `Ok`
whatever the renderer does; the computed strength, hand_rank and sub_rank are
returned unchanged, a successful render becomes the description, and a
renderer validation error degrades to its message string as the
description. -/
theorem c9_description_soft_fail (T : Tables) (p b : List Card)
    (h5 : 5 ≤ p.length + b.length) (h7 : p.length + b.length ≤ 7) :
    ∃ (best : ℕ) (hr sr : ℕ) (d : Option String),
      evaluate_hand T p b = .ok [⟨7463 - best, hr, sr, d⟩] ∧
      (hr, sr) = decompose best ∧
      (∀ e, get_string hr sr = .error e → d = some e) ∧
      (∀ s, get_string hr sr = .ok s → d = some s) := by
  obtain ⟨best, _, heval⟩ := evaluate_hand_valid T p b h5 h7
  refine ⟨best, (decompose best).1, (decompose best).2,
    some (match get_string (decompose best).1 (decompose best).2 with
      | .ok s => s | .error e => e), heval, rfl, ?_, ?_⟩
  · intro e he
    simp [he]
  · intro s hs
    simp [hs]

theorem c9_description_soft_fail_witness :
    ∃ (best : ℕ) (hr sr : ℕ) (d : Option String),
      evaluate_hand unitTables witCards5 [] = .ok [⟨7463 - best, hr, sr, d⟩] ∧
      (hr, sr) = decompose best ∧
      (∀ e, get_string hr sr = .error e → d = some e) ∧
      (∀ s, get_string hr sr = .ok s → d = some s) :=
  c9_description_soft_fail unitTables witCards5 [] (by decide) (by decide)

/-- The spec's value contract for the static tables: every raw score they can
produce lies in [1, 7462] (7463 distinct scores, never 0). -/
def TablesBounded (T : Tables) : Prop :=
  (∀ q, 1 ≤ T.flushes q ∧ T.flushes q ≤ 7462) ∧
  (∀ q v, T.unique5 q = some v → 1 ≤ v ∧ v ≤ 7462) ∧
  (∀ i, 1 ≤ T.hashValues i ∧ T.hashValues i ≤ 7462)

lemma eval_five_cards_bounds (T : Tables) (hT : TablesBounded T) (c0 c1 c2 c3 c4 : ℕ) :
    1 ≤ eval_five_cards T c0 c1 c2 c3 c4 ∧ eval_five_cards T c0 c1 c2 c3 c4 ≤ 7462 := by
  simp only [eval_five_cards]
  split
  · exact hT.1 _
  · split
    next v heq => exact hT.2.1 _ v heq
    next heq => exact hT.2.2 _

lemma evalFiveList_bounds (T : Tables) (hT : TablesBounded T) (c : List ℕ)
    (hc : c.length = 5) : 1 ≤ evalFiveList T c ∧ evalFiveList T c ≤ 7462 := by
  match c, hc with
  | [c0, c1, c2, c3, c4], _ => exact eval_five_cards_bounds T hT c0 c1 c2 c3 c4

/-- C2: for every valid 5-7 card input and tables honouring the spec's value
contract, the high evaluator returns `Ok` with a Rank whose strength is 7463
minus the minimum raw score over all C(n,5) five-card combinations, and that
strength lies in [1, 7462]. -/
theorem c2_high_strength_formula (T : Tables) (hT : TablesBounded T) (p b : List Card)
    (h5 : 5 ≤ p.length + b.length) (h7 : p.length + b.length ≤ 7) :
    ∃ (best : ℕ) (r : Rank),
      evaluate_hand T p b = .ok [r] ∧
      r.strength = 7463 - best ∧
      best ∈ rawScores T ((p ++ b).map calculate_bit_pattern) ∧
      (∀ x ∈ rawScores T ((p ++ b).map calculate_bit_pattern), best ≤ x) ∧
      1 ≤ r.strength ∧ r.strength ≤ 7462 ∧
      (rawScores T ((p ++ b).map calculate_bit_pattern)).length =
        Nat.choose (p.length + b.length) 5 := by
  obtain ⟨best, hmin, heval⟩ := evaluate_hand_valid T p b h5 h7
  have hne : rawScores T ((p ++ b).map calculate_bit_pattern) ≠ [] := by
    intro h
    rw [h] at hmin
    simp [iterMin] at hmin
  obtain ⟨hd, tl, hrseq⟩ := List.exists_cons_of_ne_nil hne
  rw [hrseq] at hmin
  have hbest : best = tl.foldl min hd := by
    simp only [iterMin, Option.some.injEq] at hmin
    exact hmin.symm
  have hmem : best ∈ rawScores T ((p ++ b).map calculate_bit_pattern) := by
    rw [hrseq, hbest]
    exact foldl_min_mem tl hd
  have hle : ∀ x ∈ rawScores T ((p ++ b).map calculate_bit_pattern), best ≤ x := by
    intro x hx
    rw [hrseq] at hx
    rw [hbest]
    exact foldl_min_le tl hd x hx
  have hbb : 1 ≤ best ∧ best ≤ 7462 := by
    obtain ⟨c, hcmem, hcv⟩ := List.mem_map.mp (by rw [rawScores] at hmem; exact hmem)
    rw [← hcv]
    exact evalFiveList_bounds T hT c (mem_combs_length 5 _ c hcmem)
  refine ⟨best, _, heval, rfl, hmem, hle, ?_, ?_, ?_⟩
  · show 1 ≤ 7463 - best
    omega
  · show 7463 - best ≤ 7462
    omega
  · simp [rawScores, combs_length]

theorem c2_high_strength_formula_witness :
    ∃ (best : ℕ) (r : Rank),
      evaluate_hand unitTables witCards5 [] = .ok [r] ∧
      r.strength = 7463 - best ∧
      best ∈ rawScores unitTables ((witCards5 ++ []).map calculate_bit_pattern) ∧
      (∀ x ∈ rawScores unitTables ((witCards5 ++ []).map calculate_bit_pattern), best ≤ x) ∧
      1 ≤ r.strength ∧ r.strength ≤ 7462 ∧
      (rawScores unitTables ((witCards5 ++ []).map calculate_bit_pattern)).length =
        Nat.choose (witCards5.length + ([] : List Card).length) 5 :=
  c2_high_strength_formula unitTables
    ⟨fun _ => by norm_num [unitTables],
     fun _ v h => by simp [unitTables] at h,
     fun _ => by norm_num [unitTables]⟩
    witCards5 [] (by decide) (by decide)

/-- The category population sizes in ascending raw-score order, as listed by
claim C3 (strongest category first). -/
def hcSizesAsc : List ℕ := [10, 156, 156, 1277, 10, 858, 858, 2860, 1277]

/-- Cumulative population counts of `hcSizesAsc`. -/
def cumSizes (j : ℕ) : ℕ := (hcSizesAsc.take j).sum

/-- The decomposition as claim C3 words it: find the first category (in
ascending raw-score order, 0 = straight flush) whose cumulative count reaches
the raw score; the category index `j` gives `hand_rank = 9 - j` and the
sub-rank is the 1-based distance from the category's weakest (largest-raw)
instance. -/
def specDecompose (raw : ℕ) : ℕ × ℕ :=
  match (List.range 9).find? (fun j => raw ≤ cumSizes (j + 1)) with
  | some j => (9 - j, cumSizes (j + 1) - raw + 1)
  | none => (0, 0)

/-- Pointwise decidable check that `decompose` agrees with `specDecompose`
and lands in category 1..9. -/
def decomposeOk (raw : ℕ) : Bool :=
  decide (decompose raw = specDecompose raw) &&
  decide (1 ≤ (decompose raw).1) && decide ((decompose raw).1 ≤ 9)

set_option maxRecDepth 1000000 in
lemma decomposeOk_chunk1 : (List.range' 1 2500).all decomposeOk = true := by decide

set_option maxRecDepth 1000000 in
lemma decomposeOk_chunk2 : (List.range' 2501 2500).all decomposeOk = true := by decide

set_option maxRecDepth 1000000 in
lemma decomposeOk_chunk3 : (List.range' 5001 2462).all decomposeOk = true := by decide

lemma decomposeOk_all (raw : ℕ) (h1 : 1 ≤ raw) (h2 : raw ≤ 7462) :
    decomposeOk raw = true := by
  by_cases ha : raw ≤ 2500
  · exact List.all_eq_true.mp decomposeOk_chunk1 raw
      (List.mem_range'.mpr ⟨raw - 1, by omega, by omega⟩)
  · by_cases hb : raw ≤ 5000
    · exact List.all_eq_true.mp decomposeOk_chunk2 raw
        (List.mem_range'.mpr ⟨raw - 2501, by omega, by omega⟩)
    · exact List.all_eq_true.mp decomposeOk_chunk3 raw
        (List.mem_range'.mpr ⟨raw - 5001, by omega, by omega⟩)

/-- C3: for every best raw score in [1, 7462], the source's threshold walk
equals the cumulative-count decomposition of `raw - 1` described by the
claim, the category lands in [1, 9] (1 = High Card, 9 = Straight Flush), the
royal flush (raw 1) decomposes to category 9 sub-rank 10 and raw score 10 to
category 9 sub-rank 1. -/
theorem c3_decompose_matches_spec (raw : ℕ) (h1 : 1 ≤ raw) (h2 : raw ≤ 7462) :
    decompose raw = specDecompose raw ∧
    1 ≤ (decompose raw).1 ∧ (decompose raw).1 ≤ 9 ∧
    decompose 1 = (9, 10) ∧ decompose 10 = (9, 1) := by
  have h := decomposeOk_all raw h1 h2
  simp only [decomposeOk, Bool.and_eq_true, decide_eq_true_eq] at h
  exact ⟨h.1.1, h.1.2, h.2, by decide, by decide⟩

theorem c3_decompose_matches_spec_witness :
    decompose 238 = specDecompose 238 ∧
    1 ≤ (decompose 238).1 ∧ (decompose 238).1 ≤ 9 ∧
    decompose 1 = (9, 10) ∧ decompose 10 = (9, 1) :=
  c3_decompose_matches_spec 238 (by norm_num) (by norm_num)

/-- `choose` from `badugi_evaluator.rs`: `n * choose(n - 1, k - 1) / k` with
`choose(_, 0) = 1`, on `Nat` (every live call has `n >= k`, where the u64
source arithmetic never under- or overflows). -/
def choose : ℕ → ℕ → ℕ
  | _, 0 => 1
  | n, k + 1 => n * choose (n - 1) k / (k + 1)

lemma choose_eq_natChoose : ∀ (k n : ℕ), choose n k = Nat.choose n k := by
  intro k
  induction k with
  | zero => intro n; simp [choose]
  | succ k ih =>
    intro n
    cases n with
    | zero => simp [choose, Nat.choose]
    | succ n =>
      simp only [choose, ih, Nat.succ_sub_one]
      rw [show n + 1 = Nat.succ n from rfl, Nat.succ_mul_choose_eq]
      exact Nat.mul_div_cancel _ (Nat.succ_pos k)

/-- The lockstep lowest-set-bit clearing loop of the badugi evaluator
(`while suit_bits != 0 && rank_bits != 0 { clear both; count += 1 }`),
embedded with a structural fuel argument; `s` itself bounds the iteration
count, so `lockstepCount` runs the loop to completion. -/
def lockstepGo : ℕ → ℕ → ℕ → ℕ
  | 0, _, _ => 0
  | fuel + 1, s, r =>
    if s ≠ 0 ∧ r ≠ 0 then lockstepGo fuel (s &&& (s - 1)) (r &&& (r - 1)) + 1 else 0

def lockstepCount (s r : ℕ) : ℕ := lockstepGo s s r

/-- The suit-mask union (bits 12-15 of each pattern) over a card list. -/
def suitBitsOf (cards : List Card) : ℕ :=
  cards.foldl (fun acc c => acc ||| ((calculate_bit_pattern c >>> 12) &&& 0xf)) 0

/-- The rank-mask union (bits 16-28 of each pattern) over a card list. -/
def rankBitsOf (cards : List Card) : ℕ :=
  cards.foldl (fun acc c => acc ||| ((calculate_bit_pattern c >>> 16) &&& 0x1fff)) 0

/-- The distinct rank/suit count of a card set: the lockstep bit count over
its suit and rank unions (Step 1 of the badugi evaluator, recomputed per
candidate in Step 2). -/
def distinctCount (cards : List Card) : ℕ :=
  lockstepCount (suitBitsOf cards) (rankBitsOf cards)

/-- Insertion sort, descending.  The source sorts with itertools'
`sorted_by(|a, b| b.cmp(a))`, a stable descending sort; on a list of plain
naturals every descending sort returns the same list, so stability is
immaterial here. -/
def sortDescInsert (x : ℕ) : List ℕ → List ℕ
  | [] => [x]
  | y :: ys => if x > y then x :: y :: ys else y :: sortDescInsert x ys

def sortDesc : List ℕ → List ℕ
  | [] => []
  | x :: xs => sortDescInsert x (sortDesc xs)

/-- The low-ace rank list of a candidate: `(value + 1) % 13` per card
(Ace = 0 .. King = 12), sorted descending. -/
def lowAceRanks (cards : List Card) : List ℕ :=
  sortDesc (cards.map (fun c => (((c.value : ℕ)) + 1) % 13))

/-- `base_strength` of the badugi scorer: start at 1 and add
`choose(13, i)` for `i in 1..card_count`. -/
def base_strength (card_count : ℕ) : ℕ :=
  (List.range' 1 (card_count - 1)).foldl (fun acc i => acc + choose 13 i) 1

/-- One step of the badugi combinatorial fold: state is
`(prev_rank_strength, acc)`; for position `i` with value `r`, every
`s in (r + 1)..prev` adds `choose(s - 1, card_count - i - 1)` to both
`strength` and `sub_rank`, then `prev` becomes `r`. -/
def srcStep (card_count : ℕ) (pa : ℕ × Rank) (ir : ℕ × ℕ) : ℕ × Rank :=
  (ir.2, (List.range' (ir.2 + 1) (pa.1 - (ir.2 + 1))).foldl
    (fun a s => ⟨a.strength + choose (s - 1) (card_count - ir.1 - 1), a.hand_rank,
      a.sub_rank + choose (s - 1) (card_count - ir.1 - 1), a.description⟩) pa.2)

/-- The badugi scorer of one candidate hand: the enumerated fold of
`badugi_evaluator.rs` starting from `prev = 13` and
`Rank { strength: base_strength, hand_rank: card_count, sub_rank: 0 }`. -/
def badugiScore (cards : List Card) : Rank :=
  let card_ranks := lowAceRanks cards
  let card_count := card_ranks.length
  (card_ranks.enum.foldl (srcStep card_count)
    (13, ⟨base_strength card_count, card_count, 0, none⟩)).2

/-- Modelled from the spec (section 4.3): ordering on `Option String` as the
derived Rust order (`None < Some`, strings lexicographic). -/
def cmpOptString (a b : Option String) : Ordering :=
  match a, b with
  | none, none => .eq
  | none, some _ => .lt
  | some _, none => .gt
  | some x, some y => if x < y then .lt else if y < x then .gt else .eq

/-- Modelled from the spec (section 4.3): the field-wise comparison of the
shared `Rank`, fields in declaration order (strength, hand_rank, sub_rank,
description).  Every field is totally ordered, so the Rust `partial_cmp` is
always `Some` of this value. -/
def rankFieldCompare (a b : Rank) : Ordering :=
  (compare a.strength b.strength).then ((compare a.hand_rank b.hand_rank).then
    ((compare a.sub_rank b.sub_rank).then (cmpOptString a.description b.description)))

/-- `rank > acc` as the badugi fold uses it: the Rust `>` operator on `Rank`,
i.e. `partial_cmp == Some(Greater)` of the field-wise order. -/
def rankGtB (a b : Rank) : Bool := rankFieldCompare a b == .gt

/-- The accumulator step of the badugi evaluator's final fold: an `Err` is
replaced by the first rank, and afterwards a rank only displaces the
accumulator when strictly greater. -/
def badugiPick (acc : Except EvaluatorError Rank) (rank : Rank) :
    Except EvaluatorError Rank :=
  match acc with
  | .ok a => if rankGtB rank a then .ok rank else .ok a
  | .error _ => .ok rank

/-- Step 2 of the badugi evaluator: all combinations of the Step-1 target
size whose recomputed distinct count equals that size. -/
def qualifyingCandidates (player_hand : List Card) : List (List Card) :=
  (combs (distinctCount player_hand) player_hand).filter
    (fun c => distinctCount c == distinctCount player_hand)

/-- `evaluate_hand` from `badugi_evaluator.rs` (the `board` argument is
accepted for interface symmetry and unused). -/
def evaluate_badugi (player_hand board : List Card) : Except EvaluatorError Rank :=
  if player_hand.length > 4 then
    .error (.TooManyCards "The player hand had too many cards" 4)
  else if player_hand.length < 4 then
    .error (.NotEnoughCards "The player hand did not have enough cards" 4)
  else
    ((qualifyingCandidates player_hand).map badugiScore).foldl badugiPick
      (.error (.UnknownError "No valid rank was generated"))

deriving instance DecidableEq for Except

/-- `base_strength` exactly as claim C4 words it: 1 plus the sum of
`C(13, i)` for `i` from 1 to `k - 1`. -/
def specBase (k : ℕ) : ℕ := 1 + ((List.range' 1 (k - 1)).map (Nat.choose 13)).sum

/-- One step of the combinatorial-number-system fold as claim C4 words it:
at position `i` with value `r`, add `C(s - 1, k - 1 - i)` for every `s` in
the half-open range `(r + 1 .. prev)`, then set `prev = r`. -/
def specStep (k : ℕ) (pa : ℕ × ℕ) (ir : ℕ × ℕ) : ℕ × ℕ :=
  (ir.2, pa.2 + ((List.range' (ir.2 + 1) (pa.1 - (ir.2 + 1))).map
    (fun s => Nat.choose (s - 1) (k - 1 - ir.1))).sum)

/-- The combinatorial-number-system offset of claim C4: fold the descending
low-ace rank list with `prev` initially 13. -/
def specOffset (k : ℕ) (ranks : List ℕ) : ℕ :=
  (ranks.enum.foldl (specStep k) (13, 0)).2

/-- A candidate's score as claim C4 words it: `strength` is
`base + offset`, `hand_rank` is the subset size and `sub_rank` the offset. -/
def specBadugiScore (cards : List Card) : Rank :=
  ⟨specBase cards.length + specOffset cards.length (lowAceRanks cards),
    cards.length, specOffset cards.length (lowAceRanks cards), none⟩

/-- The selection of claim C4: the maximum-strength rank over the qualifying
candidates, keeping the first maximum encountered on ties. -/
def specBadugi (player_hand : List Card) : Except EvaluatorError Rank :=
  match (qualifyingCandidates player_hand).map specBadugiScore with
  | [] => .error (.UnknownError "No valid rank was generated")
  | r :: rest => .ok (rest.foldl (fun a x => if a.strength < x.strength then x else a) r)

lemma foldl_addK (K : ℕ) : ∀ (l : List ℕ) (a : Rank),
    l.foldl (fun a s => ⟨a.strength + choose (s - 1) K, a.hand_rank,
      a.sub_rank + choose (s - 1) K, a.description⟩) a =
    ⟨a.strength + (l.map (fun s => Nat.choose (s - 1) K)).sum, a.hand_rank,
      a.sub_rank + (l.map (fun s => Nat.choose (s - 1) K)).sum, a.description⟩ := by
  intro l
  induction l with
  | nil => intro a; simp
  | cons x xs ih =>
    intro a
    simp only [List.foldl_cons]
    rw [ih]
    simp only [choose_eq_natChoose, List.map_cons, List.sum_cons, Rank.mk.injEq,
      and_true, true_and]
    omega

lemma srcStep_eq (cc prev i r : ℕ) (a : Rank) :
    srcStep cc (prev, a) (i, r) = (r,
      ⟨a.strength + ((List.range' (r + 1) (prev - (r + 1))).map
          (fun s => Nat.choose (s - 1) (cc - 1 - i))).sum,
        a.hand_rank,
        a.sub_rank + ((List.range' (r + 1) (prev - (r + 1))).map
          (fun s => Nat.choose (s - 1) (cc - 1 - i))).sum,
        a.description⟩) := by
  simp only [srcStep]
  rw [foldl_addK (cc - i - 1)]
  have hsub : cc - i - 1 = cc - 1 - i := by omega
  rw [hsub]

lemma specFold_shift (k : ℕ) : ∀ (l : List (ℕ × ℕ)) (p a : ℕ),
    (l.foldl (specStep k) (p, a)).2 = a + (l.foldl (specStep k) (p, 0)).2 := by
  intro l
  induction l with
  | nil => intro p a; simp
  | cons x xs ih =>
    intro p a
    obtain ⟨i, r⟩ := x
    simp only [List.foldl_cons, specStep, Nat.zero_add]
    rw [ih r (a + ((List.range' (r + 1) (p - (r + 1))).map
          (fun s => Nat.choose (s - 1) (k - 1 - i))).sum),
      ih r (((List.range' (r + 1) (p - (r + 1))).map
          (fun s => Nat.choose (s - 1) (k - 1 - i))).sum)]
    omega

lemma badugi_fold_eq (k : ℕ) : ∀ (l : List (ℕ × ℕ)) (prev : ℕ) (a : Rank),
    (l.foldl (srcStep k) (prev, a)).2 =
      ⟨a.strength + (l.foldl (specStep k) (prev, 0)).2, a.hand_rank,
        a.sub_rank + (l.foldl (specStep k) (prev, 0)).2, a.description⟩ := by
  intro l
  induction l with
  | nil => intro prev a; simp
  | cons x xs ih =>
    intro prev a
    obtain ⟨i, r⟩ := x
    simp only [List.foldl_cons]
    rw [srcStep_eq, ih]
    have hstep : specStep k (prev, 0) (i, r) = (r,
        0 + ((List.range' (r + 1) (prev - (r + 1))).map
          (fun s => Nat.choose (s - 1) (k - 1 - i))).sum) := rfl
    rw [hstep, specFold_shift k xs r
      (0 + ((List.range' (r + 1) (prev - (r + 1))).map
        (fun s => Nat.choose (s - 1) (k - 1 - i))).sum)]
    dsimp only
    rw [Rank.mk.injEq]
    refine ⟨by omega, rfl, by omega, rfl⟩

lemma sortDescInsert_length (x : ℕ) : ∀ (l : List ℕ),
    (sortDescInsert x l).length = l.length + 1 := by
  intro l
  induction l with
  | nil => rfl
  | cons y ys ih =>
    simp only [sortDescInsert]
    split
    · rfl
    · simp [ih]

lemma sortDesc_length : ∀ (l : List ℕ), (sortDesc l).length = l.length := by
  intro l
  induction l with
  | nil => rfl
  | cons x xs ih => simp [sortDesc, sortDescInsert_length, ih]

lemma foldl_add_map (f : ℕ → ℕ) : ∀ (l : List ℕ) (init : ℕ),
    l.foldl (fun acc i => acc + f i) init = init + (l.map f).sum := by
  intro l
  induction l with
  | nil => intro init; simp
  | cons x xs ih =>
    intro init
    simp only [List.foldl_cons, ih, List.map_cons, List.sum_cons]
    omega

lemma base_strength_eq (k : ℕ) : base_strength k = specBase k := by
  simp only [base_strength, specBase]
  rw [foldl_add_map]
  have hmap : List.map (choose 13) (List.range' 1 (k - 1)) =
      List.map (Nat.choose 13) (List.range' 1 (k - 1)) := by
    apply List.map_congr_left
    intro i _
    exact choose_eq_natChoose i 13
  rw [hmap]

lemma badugiScore_eq_spec (cards : List Card) :
    badugiScore cards = specBadugiScore cards := by
  have hlen : (lowAceRanks cards).length = cards.length := by
    simp [lowAceRanks, sortDesc_length]
  simp only [badugiScore, specBadugiScore, specOffset, hlen]
  rw [badugi_fold_eq, base_strength_eq]
  simp

/-- The common shape of every scored badugi candidate of size `k`: its
hand_rank is `k`, its strength is `specBase k` plus its sub_rank, and it has
no description. -/
def ScoredShape (k : ℕ) (r : Rank) : Prop :=
  r.hand_rank = k ∧ r.strength = specBase k + r.sub_rank ∧ r.description = none

lemma rankGtB_iff_strength {k : ℕ} {x a : Rank}
    (hx : ScoredShape k x) (ha : ScoredShape k a) :
    rankGtB x a = decide (a.strength < x.strength) := by
  obtain ⟨hx1, hx2, hx3⟩ := hx
  obtain ⟨ha1, ha2, ha3⟩ := ha
  rcases Nat.lt_trichotomy a.strength x.strength with h | h | h
  · have hfc : rankFieldCompare x a = .gt := by
      simp [rankFieldCompare, Nat.compare_eq_gt.mpr h, Ordering.then]
    have h1 : rankGtB x a = true := by rw [rankGtB, hfc]; rfl
    rw [h1]
    exact (decide_eq_true h).symm
  · have hsub : x.sub_rank = a.sub_rank := by omega
    have hfc : rankFieldCompare x a = .eq := by
      simp [rankFieldCompare, Nat.compare_eq_eq.mpr h.symm,
        Nat.compare_eq_eq.mpr (hx1.trans ha1.symm), Nat.compare_eq_eq.mpr hsub,
        hx3, ha3, Ordering.then, cmpOptString]
    have hnot : ¬ a.strength < x.strength := by omega
    have h1 : rankGtB x a = false := by rw [rankGtB, hfc]; rfl
    rw [h1]
    exact (decide_eq_false hnot).symm
  · have hfc : rankFieldCompare x a = .lt := by
      simp [rankFieldCompare, Nat.compare_eq_lt.mpr h, Ordering.then]
    have hnot : ¬ a.strength < x.strength := by omega
    have h1 : rankGtB x a = false := by rw [rankGtB, hfc]; rfl
    rw [h1]
    exact (decide_eq_false hnot).symm

lemma fold_pick_eq (k : ℕ) : ∀ (l : List Rank) (a : Rank),
    (∀ r ∈ l, ScoredShape k r) → ScoredShape k a →
    l.foldl badugiPick (.ok a) =
      .ok (l.foldl (fun x y => if x.strength < y.strength then y else x) a) := by
  intro l
  induction l with
  | nil => intro a _ _; rfl
  | cons x xs ih =>
    intro a hl ha
    have hx := hl x (List.mem_cons_self x xs)
    have htl : ∀ r ∈ xs, ScoredShape k r := fun r hr => hl r (List.mem_cons_of_mem x hr)
    simp only [List.foldl_cons, badugiPick]
    rw [rankGtB_iff_strength hx ha]
    simp only [decide_eq_true_eq]
    by_cases h : a.strength < x.strength
    · rw [if_pos h, if_pos h]
      exact ih x htl hx
    · rw [if_neg h, if_neg h]
      exact ih a htl ha

/-- C4: every qualifying candidate is scored exactly by the claim's
combinatorial-number-system formula (base strength plus offset, hand_rank =
subset size, sub_rank = offset), and on a valid 4-card hand the evaluator
returns the maximum-strength candidate, keeping the first maximum on ties. -/
theorem c4_badugi_scoring_matches_spec (p b : List Card) (h4 : p.length = 4) :
    (∀ c : List Card, badugiScore c = specBadugiScore c) ∧
    evaluate_badugi p b = specBadugi p := by
  refine ⟨badugiScore_eq_spec, ?_⟩
  have hmap : (qualifyingCandidates p).map badugiScore =
      (qualifyingCandidates p).map specBadugiScore := by
    apply List.map_congr_left
    intro c _
    exact badugiScore_eq_spec c
  simp only [evaluate_badugi]
  rw [if_neg (by omega), if_neg (by omega), hmap]
  cases hq : (qualifyingCandidates p).map specBadugiScore with
  | nil => simp [specBadugi, hq]
  | cons r rest =>
    have hshape : ∀ x ∈ r :: rest, ScoredShape (distinctCount p) x := by
      intro x hx
      rw [← hq] at hx
      obtain ⟨c, hcmem, rfl⟩ := List.mem_map.mp hx
      have hclen : c.length = distinctCount p :=
        mem_combs_length _ _ c (List.mem_of_mem_filter hcmem)
      refine ⟨?_, ?_, rfl⟩
      · simp [specBadugiScore, hclen]
      · simp [specBadugiScore, hclen]
    simp only [List.foldl_cons, badugiPick]
    rw [fold_pick_eq (distinctCount p) rest r
      (fun x hx => hshape x (List.mem_cons_of_mem r hx))
      (hshape r (List.mem_cons_self r rest))]
    simp [specBadugi, hq]

theorem c4_badugi_scoring_matches_spec_witness :
    (∀ c : List Card, badugiScore c = specBadugiScore c) ∧
    evaluate_badugi [⟨12, 0⟩, ⟨0, 2⟩, ⟨1, 3⟩, ⟨2, 1⟩] [] =
      specBadugi [⟨12, 0⟩, ⟨0, 2⟩, ⟨1, 3⟩, ⟨2, 1⟩] :=
  c4_badugi_scoring_matches_spec [⟨12, 0⟩, ⟨0, 2⟩, ⟨1, 3⟩, ⟨2, 1⟩] [] (by decide)

/-- Ace of spades, Two of spades, Three of hearts, Three of diamonds
(suits encoded spades = 0, hearts = 1, diamonds = 2, clubs = 3). -/
def badCards8 : List Card := [⟨12, 0⟩, ⟨0, 0⟩, ⟨1, 1⟩, ⟨1, 2⟩]

/-- C8: whenever no enumerated candidate passes the qualifying filter the
badugi evaluator fails with `UnknownError`, and the branch is reachable: for
As 2s 3h 3d the Step-1 lockstep count is 3, no 3-card subset has pairwise
distinct ranks and suits, every candidate is filtered out, and the evaluator
returns `UnknownError` instead of falling back to a smaller size. -/
theorem c8_badugi_unknown_error :
    (∀ (p b : List Card), p.length = 4 → qualifyingCandidates p = [] →
      evaluate_badugi p b = .error (.UnknownError "No valid rank was generated")) ∧
    distinctCount badCards8 = 3 ∧
    qualifyingCandidates badCards8 = [] ∧
    (∀ c ∈ combs 3 badCards8,
      ¬((List.Pairwise (fun x y => x.value ≠ y.value) c) ∧
        (List.Pairwise (fun x y => x.suit ≠ y.suit) c))) ∧
    evaluate_badugi badCards8 [] = .error (.UnknownError "No valid rank was generated") := by
  refine ⟨?_, by decide, by decide, by decide, by decide⟩
  intro p b h4 hq
  simp only [evaluate_badugi]
  rw [if_neg (by omega), if_neg (by omega), hq]
  rfl

theorem c8_badugi_unknown_error_witness :
    evaluate_badugi badCards8 [] = .error (.UnknownError "No valid rank was generated") :=
  c8_badugi_unknown_error.1 badCards8 [] (by decide) (by decide)

/-- A canonical fold form of the five-card scorer, used to show it is a
symmetric function of its five cards: the rank-union, the masked suit AND
and the prime product are folds of commutative-associative operations. -/
def geval (T : Tables) (l : List ℕ) : ℕ :=
  let q := (l.foldr (· ||| ·) 0) >>> 16
  if (l.map (· &&& 0xf000)).foldr (· &&& ·) 0xf000 ≠ 0 then
    T.flushes q
  else
    match T.unique5 q with
    | some v => v
    | none =>
      T.hashValues (find_fast T.hashAdjust ((l.map (· &&& 0xff)).foldr (· * ·) 1))

lemma evalFiveList_eq_geval (T : Tables) (c : List ℕ) (h : c.length = 5) :
    evalFiveList T c = geval T c := by
  match c, h with
  | [a, b, d, e, f], _ =>
    have h1 : a ||| (b ||| (d ||| (e ||| (f ||| 0)))) = a ||| b ||| d ||| e ||| f := by
      simp [Nat.lor_assoc]
    have h2 : (a &&& 0xf000) &&& ((b &&& 0xf000) &&& ((d &&& 0xf000) &&&
        ((e &&& 0xf000) &&& ((f &&& 0xf000) &&& 0xf000)))) =
        a &&& b &&& d &&& e &&& f &&& 0xf000 := by
      apply Nat.eq_of_testBit_eq
      intro i
      simp only [Nat.testBit_and]
      cases a.testBit i <;> cases b.testBit i <;> cases d.testBit i <;>
        cases e.testBit i <;> cases f.testBit i <;> cases Nat.testBit 0xf000 i <;> rfl
    have h3 : (a &&& 0xff) * ((b &&& 0xff) * ((d &&& 0xff) * ((e &&& 0xff) *
        ((f &&& 0xff) * 1)))) =
        (a &&& 0xff) * (b &&& 0xff) * (d &&& 0xff) * (e &&& 0xff) * (f &&& 0xff) := by
      ring
    simp only [evalFiveList, geval, eval_five_cards, List.map_cons, List.map_nil,
      List.foldr_cons, List.foldr_nil, h1, h2, h3]

lemma perm_foldr_eq {f : ℕ → ℕ → ℕ} (hf : ∀ a b c, f a (f b c) = f b (f a c)) :
    ∀ {l l' : List ℕ}, l.Perm l' → ∀ z, l.foldr f z = l'.foldr f z := by
  intro l l' h
  induction h with
  | nil => intro z; rfl
  | cons x _ ih => intro z; simp only [List.foldr_cons, ih]
  | swap x y l => intro z; simp only [List.foldr_cons]; exact hf y x _
  | trans _ _ ih1 ih2 => intro z; exact (ih1 z).trans (ih2 z)

lemma geval_perm (T : Tables) {l l' : List ℕ} (h : l.Perm l') : geval T l = geval T l' := by
  have hor : l.foldr (· ||| ·) 0 = l'.foldr (· ||| ·) 0 :=
    perm_foldr_eq (fun a b c => by
      rw [← Nat.lor_assoc, Nat.lor_comm a b, Nat.lor_assoc]) h 0
  have hand : (l.map (· &&& 0xf000)).foldr (· &&& ·) 0xf000 =
      (l'.map (· &&& 0xf000)).foldr (· &&& ·) 0xf000 :=
    perm_foldr_eq (fun a b c => by
      rw [← Nat.land_assoc, Nat.land_comm a b, Nat.land_assoc]) (h.map _) 0xf000
  have hmul : (l.map (· &&& 0xff)).foldr (· * ·) 1 =
      (l'.map (· &&& 0xff)).foldr (· * ·) 1 :=
    perm_foldr_eq (fun a b c => by ring) (h.map _) 1
  simp only [geval, hor, hand, hmul]

lemma evalFiveList_ne5 (T : Tables) (c : List ℕ) (h : c.length ≠ 5) :
    evalFiveList T c = 0 := by
  match c, h with
  | [], _ => rfl
  | [_], _ => rfl
  | [_, _], _ => rfl
  | [_, _, _], _ => rfl
  | [_, _, _, _], _ => rfl
  | [_, _, _, _, _], hh => exact absurd rfl hh
  | (_ :: _ :: _ :: _ :: _ :: _ :: _), _ => rfl

lemma evalFiveList_perm (T : Tables) {c c' : List ℕ} (h : c.Perm c') :
    evalFiveList T c = evalFiveList T c' := by
  have hlen := h.length_eq
  by_cases h5 : c.length = 5
  · rw [evalFiveList_eq_geval T c h5, evalFiveList_eq_geval T c' (by omega)]
    exact geval_perm T h
  · rw [evalFiveList_ne5 T c h5, evalFiveList_ne5 T c' (by omega)]

lemma combs_map_perm : ∀ {l l' : List ℕ}, l.Perm l' →
    ∀ {β : Type} (k : ℕ) (f : List ℕ → β), (∀ c c', c.Perm c' → f c = f c') →
    ((combs k l).map f).Perm ((combs k l').map f) := by
  intro l l' h
  induction h with
  | nil => intro β k f _; exact List.Perm.refl _
  | cons x _ ih =>
    intro β k f hf
    cases k with
    | zero => simp [combs]
    | succ k =>
      simp only [combs, List.map_append, List.map_map, Function.comp_def]
      exact List.Perm.append (ih k (fun c => f (x :: c))
        (fun c c' hc => hf _ _ (hc.cons x))) (ih (k + 1) f hf)
  | swap x y l =>
    intro β k f hf
    match k with
    | 0 => simp [combs]
    | 1 =>
      simp only [combs, List.map_append, List.map_map, List.map_cons, List.map_nil,
        Function.comp_def, List.nil_append, List.cons_append]
      exact List.Perm.swap (f [x]) (f [y]) _
    | (k + 2) =>
      simp only [combs, List.map_append, List.map_map, Function.comp_def,
        List.append_assoc]
      have e1 : (combs k l).map (fun c => f (y :: x :: c)) =
          (combs k l).map (fun c => f (x :: y :: c)) := by
        apply List.map_congr_left
        intro c _
        exact hf _ _ (List.Perm.swap x y c)
      rw [e1]
      apply List.Perm.append_left
      rw [← List.append_assoc, ← List.append_assoc]
      exact List.Perm.append_right _ List.perm_append_comm
  | trans _ _ ih1 ih2 =>
    intro β k f hf
    exact (ih1 k f hf).trans (ih2 k f hf)

lemma iterMin_perm {l l' : List ℕ} (h : l.Perm l') : iterMin l = iterMin l' := by
  rcases l with _ | ⟨a, t⟩
  · rw [(h.symm.eq_nil : l' = [])]
  · rcases l' with _ | ⟨b, t'⟩
    · exact absurd h.eq_nil (by simp)
    · have m1 := foldl_min_mem t a
      have m1' := foldl_min_mem t' b
      simp only [iterMin, Option.some.injEq]
      exact Nat.le_antisymm
        (foldl_min_le t a _ (h.mem_iff.mpr m1'))
        (foldl_min_le t' b _ (h.mem_iff.mp m1))

lemma evaluate_hand_min_congr (T : Tables) (p b p2 b2 : List Card)
    (hl : p2.length + b2.length = p.length + b.length)
    (hmin : iterMin (rawScores T ((p2 ++ b2).map calculate_bit_pattern)) =
      iterMin (rawScores T ((p ++ b).map calculate_bit_pattern))) :
    evaluate_hand T p2 b2 = evaluate_hand T p b := by
  simp only [evaluate_hand]
  rw [hl, hmin]

lemma pattern_shr16 : ∀ (v : Fin 13) (s : Fin 4),
    calculate_bit_pattern ⟨v, s⟩ >>> 16 = 2 ^ (v : ℕ) := by decide

lemma pattern_f000 : ∀ (v : Fin 13) (s : Fin 4),
    calculate_bit_pattern ⟨v, s⟩ &&& 0xf000 = 2 ^ (12 + (s : ℕ)) := by decide

lemma pattern_ff : ∀ (v : Fin 13) (s : Fin 4),
    calculate_bit_pattern ⟨v, s⟩ &&& 0xff = rankPrime v := by decide

lemma and_mask5 (p0 p1 p2 p3 p4 m : ℕ) :
    p0 &&& p1 &&& p2 &&& p3 &&& p4 &&& m =
      (p0 &&& m) &&& ((p1 &&& m) &&& ((p2 &&& m) &&& ((p3 &&& m) &&& (p4 &&& m)))) := by
  apply Nat.eq_of_testBit_eq
  intro i
  simp only [Nat.testBit_and]
  cases p0.testBit i <;> cases p1.testBit i <;> cases p2.testBit i <;>
    cases p3.testBit i <;> cases p4.testBit i <;> cases m.testBit i <;> rfl

lemma suit_and_ne_iff : ∀ (s0 s1 s2 s3 s4 : Fin 4),
    (2 ^ (12 + (s0 : ℕ)) &&& (2 ^ (12 + (s1 : ℕ)) &&& (2 ^ (12 + (s2 : ℕ)) &&&
      (2 ^ (12 + (s3 : ℕ)) &&& 2 ^ (12 + (s4 : ℕ))))) ≠ 0) ↔
    (s0 = s1 ∧ s0 = s2 ∧ s0 = s3 ∧ s0 = s4) := by decide

/-- A uniform suit relabeling: the same suit map applied to every card. -/
def relabelCard (σ : Fin 4 → Fin 4) (c : Card) : Card := ⟨c.value, σ c.suit⟩

lemma eval5_suit_cond (v0 v1 v2 v3 v4 : Fin 13) (s0 s1 s2 s3 s4 : Fin 4) :
    (calculate_bit_pattern ⟨v0, s0⟩ &&& calculate_bit_pattern ⟨v1, s1⟩ &&&
      calculate_bit_pattern ⟨v2, s2⟩ &&& calculate_bit_pattern ⟨v3, s3⟩ &&&
      calculate_bit_pattern ⟨v4, s4⟩ &&& 0xf000 ≠ 0) ↔
    (s0 = s1 ∧ s0 = s2 ∧ s0 = s3 ∧ s0 = s4) := by
  rw [and_mask5, pattern_f000, pattern_f000, pattern_f000, pattern_f000, pattern_f000]
  exact suit_and_ne_iff s0 s1 s2 s3 s4

lemma eval5_q (v0 v1 v2 v3 v4 : Fin 13) (s0 s1 s2 s3 s4 : Fin 4) :
    (calculate_bit_pattern ⟨v0, s0⟩ ||| calculate_bit_pattern ⟨v1, s1⟩ |||
      calculate_bit_pattern ⟨v2, s2⟩ ||| calculate_bit_pattern ⟨v3, s3⟩ |||
      calculate_bit_pattern ⟨v4, s4⟩) >>> 16 =
    2 ^ (v0 : ℕ) ||| 2 ^ (v1 : ℕ) ||| 2 ^ (v2 : ℕ) ||| 2 ^ (v3 : ℕ) ||| 2 ^ (v4 : ℕ) := by
  rw [lor_shiftRight, lor_shiftRight, lor_shiftRight, lor_shiftRight,
    pattern_shr16, pattern_shr16, pattern_shr16, pattern_shr16, pattern_shr16]

lemma eval5_relabel (T : Tables) (σ : Fin 4 → Fin 4) (hσ : Function.Injective σ)
    (k0 k1 k2 k3 k4 : Card) :
    eval_five_cards T (calculate_bit_pattern (relabelCard σ k0))
      (calculate_bit_pattern (relabelCard σ k1)) (calculate_bit_pattern (relabelCard σ k2))
      (calculate_bit_pattern (relabelCard σ k3)) (calculate_bit_pattern (relabelCard σ k4)) =
    eval_five_cards T (calculate_bit_pattern k0) (calculate_bit_pattern k1)
      (calculate_bit_pattern k2) (calculate_bit_pattern k3) (calculate_bit_pattern k4) := by
  obtain ⟨v0, s0⟩ := k0
  obtain ⟨v1, s1⟩ := k1
  obtain ⟨v2, s2⟩ := k2
  obtain ⟨v3, s3⟩ := k3
  obtain ⟨v4, s4⟩ := k4
  simp only [relabelCard]
  have hcond : (calculate_bit_pattern ⟨v0, σ s0⟩ &&& calculate_bit_pattern ⟨v1, σ s1⟩ &&&
      calculate_bit_pattern ⟨v2, σ s2⟩ &&& calculate_bit_pattern ⟨v3, σ s3⟩ &&&
      calculate_bit_pattern ⟨v4, σ s4⟩ &&& 0xf000 ≠ 0) ↔
      (calculate_bit_pattern ⟨v0, s0⟩ &&& calculate_bit_pattern ⟨v1, s1⟩ &&&
      calculate_bit_pattern ⟨v2, s2⟩ &&& calculate_bit_pattern ⟨v3, s3⟩ &&&
      calculate_bit_pattern ⟨v4, s4⟩ &&& 0xf000 ≠ 0) := by
    rw [eval5_suit_cond, eval5_suit_cond, hσ.eq_iff, hσ.eq_iff, hσ.eq_iff, hσ.eq_iff]
  simp only [eval_five_cards, eval5_q, pattern_ff]
  exact if_congr hcond rfl rfl

lemma combs_map {α β : Type} (g : α → β) : ∀ (k : ℕ) (l : List α),
    combs k (l.map g) = (combs k l).map (List.map g) := by
  intro k l
  induction l generalizing k with
  | nil => cases k <;> simp [combs]
  | cons x xs ih =>
    cases k with
    | zero => simp [combs]
    | succ k =>
      simp only [List.map_cons, combs, List.map_append, List.map_map, ih]
      congr 1

lemma evalFiveList_map_relabel (T : Tables) (σ : Fin 4 → Fin 4)
    (hσ : Function.Injective σ) (c : List Card) (hc : c.length = 5) :
    evalFiveList T (c.map (fun k => calculate_bit_pattern (relabelCard σ k))) =
    evalFiveList T (c.map calculate_bit_pattern) := by
  match c, hc with
  | [k0, k1, k2, k3, k4], _ => exact eval5_relabel T σ hσ k0 k1 k2 k3 k4

/-- The strength of the single Rank the high evaluator returns (`none` on an
error result). -/
def highStrength (T : Tables) (p b : List Card) : Option ℕ :=
  match evaluate_hand T p b with
  | .ok (r :: _) => some r.strength
  | _ => none

/-- C6: for every valid 5-7 card set the high evaluator's strength is
unchanged under any reordering of the cards within `player_hand` and `board`
and under any uniform relabeling of the four suits. -/
theorem c6_high_invariance (T : Tables) (p p' b b' : List Card) (σ : Fin 4 → Fin 4)
    (hp : p.Perm p') (hb : b.Perm b') (hσ : Function.Bijective σ)
    (h5 : 5 ≤ p.length + b.length) (h7 : p.length + b.length ≤ 7) :
    highStrength T p' b' = highStrength T p b ∧
    highStrength T (p.map (relabelCard σ)) (b.map (relabelCard σ)) =
      highStrength T p b := by
  constructor
  · have hl : p'.length + b'.length = p.length + b.length := by
      rw [← hp.length_eq, ← hb.length_eq]
    have hperm : ((p' ++ b').map calculate_bit_pattern).Perm
        ((p ++ b).map calculate_bit_pattern) :=
      ((hp.symm).append (hb.symm)).map _
    have hmin : iterMin (rawScores T ((p' ++ b').map calculate_bit_pattern)) =
        iterMin (rawScores T ((p ++ b).map calculate_bit_pattern)) := by
      apply iterMin_perm
      exact combs_map_perm hperm 5 (evalFiveList T)
        (fun c c' hc => evalFiveList_perm T hc)
    have he := evaluate_hand_min_congr T p b p' b' hl hmin
    unfold highStrength
    rw [he]
  · have hl : (p.map (relabelCard σ)).length + (b.map (relabelCard σ)).length =
        p.length + b.length := by simp
    have heq : rawScores T ((p.map (relabelCard σ) ++ b.map (relabelCard σ)).map
        calculate_bit_pattern) = rawScores T ((p ++ b).map calculate_bit_pattern) := by
      rw [← List.map_append, List.map_map]
      unfold rawScores
      rw [combs_map, combs_map, List.map_map, List.map_map]
      apply List.map_congr_left
      intro c hc
      have hclen : c.length = 5 := mem_combs_length 5 _ c hc
      simp only [Function.comp_def]
      exact evalFiveList_map_relabel T σ hσ.injective c hclen
    have he := evaluate_hand_min_congr T p b (p.map (relabelCard σ))
      (b.map (relabelCard σ)) hl (by rw [heq])
    unfold highStrength
    rw [he]

theorem c6_high_invariance_witness :
    highStrength unitTables [⟨1, 1⟩, ⟨0, 0⟩] [⟨3, 3⟩, ⟨2, 2⟩, ⟨4, 0⟩] =
      highStrength unitTables [⟨0, 0⟩, ⟨1, 1⟩] [⟨2, 2⟩, ⟨3, 3⟩, ⟨4, 0⟩] ∧
    highStrength unitTables ([⟨0, 0⟩, ⟨1, 1⟩].map (relabelCard (fun s => s + 1)))
        ([⟨2, 2⟩, ⟨3, 3⟩, ⟨4, 0⟩].map (relabelCard (fun s => s + 1))) =
      highStrength unitTables [⟨0, 0⟩, ⟨1, 1⟩] [⟨2, 2⟩, ⟨3, 3⟩, ⟨4, 0⟩] :=
  c6_high_invariance unitTables [⟨0, 0⟩, ⟨1, 1⟩] [⟨1, 1⟩, ⟨0, 0⟩]
    [⟨2, 2⟩, ⟨3, 3⟩, ⟨4, 0⟩] [⟨3, 3⟩, ⟨2, 2⟩, ⟨4, 0⟩] (fun s => s + 1)
    (by decide) (by decide) (by decide) (by decide) (by decide)

/-- Binary population count with a structural fuel argument (`n` itself
bounds the number of binary digits). -/
def popGo : ℕ → ℕ → ℕ
  | 0, _ => 0
  | fuel + 1, n => if n = 0 then 0 else n % 2 + popGo fuel (n / 2)

def popCount (n : ℕ) : ℕ := popGo n n

/-- The hash-value entries needed by the claim-C7 hands: perfect-hash index
(computed by `find_fast` with the all-zero adjustment table below) paired
with the canonical raw score of the rank multiset hashing there. -/
def c7HashList : List (ℕ × ℕ) :=
  [(533, 2500), (536, 2500), (537, 4000), (550, 2500), (740, 4000), (750, 2500),
   (763, 237), (792, 1940), (846, 238), (1211, 1940), (1706, 1940)]

/-- Modelled from the spec: the repository's `tables` module is not among the
embedded sources, so this is a concrete table instance realising the spec's
contract on every lookup the claim-C7 hands perform.  `UNIQUE5` holds exactly
the 13-bit keys with five bits set (five distinct ranks); the two full houses
score `323 - sub_rank` per the category boundaries and the section-4.1.1
full-house formula (nines full of twos = 238, nines full of threes = 237);
the remaining (trips / two pair / pair) multisets receive a fixed
representative inside their category's raw band (1940 / 2500 / 4000), which
never reaches the minimum.  The adjustment table is all zero: `find_fast` is
already collision-free on the eleven arising prime products. -/
def c7Tables : Tables where
  flushes := fun _ => 1
  unique5 := fun q => if popCount q = 5 then some 6186 else none
  hashValues := fun i => (c7HashList.lookup i).getD 1
  hashAdjust := fun _ => 0

/-- C7: on player hand 8h 9s with board 2d 9d 2c 9h 3h the high evaluator
returns the rank described "9s Full of 2s" (strength 7225 = 7463 - 238); on
9c 3s with the same board it returns "9s Full of 3s" (strength 7226); the
second strictly outranks the first.  Suits: spades 0, hearts 1, diamonds 2,
clubs 3; values 0 = Two .. 12 = Ace. -/
theorem c7_cooler_example :
    evaluate_hand c7Tables [⟨6, 1⟩, ⟨7, 0⟩] [⟨0, 2⟩, ⟨7, 2⟩, ⟨0, 3⟩, ⟨7, 1⟩, ⟨1, 1⟩] =
      .ok [⟨7225, 7, 85, some "9s Full of 2s"⟩] ∧
    evaluate_hand c7Tables [⟨7, 3⟩, ⟨1, 0⟩] [⟨0, 2⟩, ⟨7, 2⟩, ⟨0, 3⟩, ⟨7, 1⟩, ⟨1, 1⟩] =
      .ok [⟨7226, 7, 86, some "9s Full of 3s"⟩] ∧
    (7226 : ℕ) > 7225 :=
  ⟨by decide, by decide, by decide⟩

/-- `BadugiRank` from `badugi_rank.rs`: a wrapper around the shared rank
(`pub struct BadugiRank(pub BasicRank)`). -/
structure BadugiRank where
  toBasic : Rank
deriving DecidableEq

/-- The hand-written `Ord` impl of `BadugiRank`:
`self.0.strength.cmp(&other.0.strength)`. -/
def badugiCmp (a b : BadugiRank) : Ordering :=
  compare a.toBasic.strength b.toBasic.strength

/-- The derived `PartialOrd` of `BadugiRank` compares its single field with
the underlying `Rank`'s partial order — modelled from the spec (section 4.3)
as the field-wise comparison `rankFieldCompare`, which is total, so
`partial_cmp` is always `Some`. -/
def badugiPartialCmp (a b : BadugiRank) : Option Ordering :=
  some (rankFieldCompare a.toBasic b.toBasic)

/-- C10 counterexample: two `BadugiRank` values with equal strength but
different sub_rank are equal under `cmp` yet strictly ordered under the
comparison operators' partial order, so the partial order does not order
them "exactly as their strength fields" (that would give `some .eq`). -/
theorem c10_order_counterexample :
    badugiCmp ⟨⟨5, 1, 2, none⟩⟩ ⟨⟨5, 1, 3, none⟩⟩ = .eq ∧
    compare (5 : ℕ) 5 = .eq ∧
    badugiPartialCmp ⟨⟨5, 1, 2, none⟩⟩ ⟨⟨5, 1, 3, none⟩⟩ = some .lt ∧
    badugiPartialCmp ⟨⟨5, 1, 2, none⟩⟩ ⟨⟨5, 1, 3, none⟩⟩ ≠ some .eq := by decide

/-- C10 amended: `cmp` on `BadugiRank` orders exactly by strength; the
derived partial order delegates to the underlying field-wise `Rank`
comparison, so it agrees with the strength ordering whenever the strengths
differ, but refines equal-strength pairs by the remaining fields. -/
theorem c10_order_amended :
    (∀ a b : BadugiRank, badugiCmp a b = compare a.toBasic.strength b.toBasic.strength) ∧
    (∀ a b : BadugiRank, a.toBasic.strength ≠ b.toBasic.strength →
      badugiPartialCmp a b = some (compare a.toBasic.strength b.toBasic.strength)) := by
  refine ⟨fun a b => rfl, fun a b h => ?_⟩
  rcases Nat.lt_trichotomy a.toBasic.strength b.toBasic.strength with hlt | heq | hgt
  · simp [badugiPartialCmp, rankFieldCompare, Nat.compare_eq_lt.mpr hlt, Ordering.then]
  · exact absurd heq h
  · simp [badugiPartialCmp, rankFieldCompare, Nat.compare_eq_gt.mpr hgt, Ordering.then]

theorem c10_order_amended_witness :
    badugiCmp ⟨⟨3, 0, 0, none⟩⟩ ⟨⟨3, 0, 0, none⟩⟩ = compare (3 : ℕ) 3 ∧
    badugiPartialCmp ⟨⟨4, 0, 0, none⟩⟩ ⟨⟨7, 0, 0, none⟩⟩ = some (compare (4 : ℕ) 7) :=
  ⟨c10_order_amended.1 ⟨⟨3, 0, 0, none⟩⟩ ⟨⟨3, 0, 0, none⟩⟩,
   c10_order_amended.2 ⟨⟨4, 0, 0, none⟩⟩ ⟨⟨7, 0, 0, none⟩⟩ (by decide)⟩
